import Mathlib

/-!
# Verification of transformer-lab's training-loop wrapper and numeric utilities

Shallow embedding of `src/tlab/optimize.py` (the `OptimConfig` dataclass, the
`Optimizer` class and the `cross_entropy` loss) and of
`src/tlab/utils/util.py` (the `fourier_basis` utility), over idealized real
arithmetic.  Torch tensors become lists or `Fin`-indexed vectors of reals;
the external autodiff/optimizer machinery (AdamW's update rule, autograd's
gradient) is abstracted as function parameters, since it lives in the
third-party framework and every claim treats it as a black box.
-/

open scoped BigOperators

noncomputable section

namespace TLab

/-- Embeds the `OptimConfig` dataclass of `optimize.py`. -/
structure OptimConfig where
  learning_rate : ℝ
  weight_decay : ℝ
  n_epochs : ℕ
  fixed_wnorm : Bool

/-- The learning-rate multiplier `lambda step: min(step / 10, 1)` passed to
`LambdaLR` in `Optimizer.__init__`. -/
def lr_lambda (s : ℕ) : ℝ := min ((s : ℝ) / 10) 1

/-- Modelled from the spec: the `Optimizer` "schedules a learning rate" via
torch's `LambdaLR`, which is external to the repository.  Its standard
semantics: after `s` calls to `scheduler.step()` the applied learning rate is
the base rate multiplied by the lambda evaluated at `s`. -/
def appliedLR (cfg : OptimConfig) (s : ℕ) : ℝ := cfg.learning_rate * lr_lambda s

/-- Modelled from the spec: `Transformer.wnorm` is not under `src/`; the spec
describes it as "an aggregate scalar measuring a model's parameter vector
magnitude", embedded here as the Euclidean norm of the parameter vector. -/
def wnorm {n : ℕ} (p : Fin n → ℝ) : ℝ := Real.sqrt (∑ i, p i ^ 2)

/-- One division of the dataset: the `"In"` and `"Label"` entries of
`data["Train"]` or `data["Test"]`. -/
structure DataDiv (I L : Type) where
  inp : I
  label : L

/-- The `Dataset` dictionary with its `"Train"` and `"Test"` divisions. -/
structure Dataset (I L : Type) where
  train : DataDiv I L
  test : DataDiv I L

/-- Embeds the state of the `Optimizer` class: configuration, loss function,
device, epoch counter, recorded starting norm, loss histories, the number of
scheduler steps taken, and the wrapped model's parameters and gradients
(torch keeps the latter two on the model; they are carried here so that the
training step can be expressed as a state transition). -/
structure Optimizer (n : ℕ) (I L : Type) where
  config : OptimConfig
  loss_func : (Fin n → ℝ) → I → L → String → ℝ
  device : String
  epoch : ℕ
  start_norm : ℝ
  train_losses : List ℝ
  test_losses : List ℝ
  sched_steps : ℕ
  params : Fin n → ℝ
  grads : Fin n → ℝ

/-- Embeds `Optimizer.__init__`: stores the configuration, loss function and
device, records `model.wnorm` as `start_norm`, and starts with empty loss
histories, epoch 0, and an unstepped scheduler. -/
def Optimizer.init {n : ℕ} {I L : Type} (cfg : OptimConfig)
    (p0 : Fin n → ℝ) (loss_func : (Fin n → ℝ) → I → L → String → ℝ)
    (device : String) : Optimizer n I L :=
  { config := cfg
    loss_func := loss_func
    device := device
    epoch := 0
    start_norm := wnorm p0
    train_losses := []
    test_losses := []
    sched_steps := 0
    params := p0
    grads := fun _ => 0 }

/-- Embeds `Optimizer.measure_loss`: resolves the device default, evaluates the
loss function on the train and test divisions of the current model, appends
both values to the histories, and returns the pair. -/
def Optimizer.measure_loss {n : ℕ} {I L : Type} (st : Optimizer n I L)
    (data : Dataset I L) (dev : Option String) : ℝ × ℝ × Optimizer n I L :=
  let device := dev.getD st.device
  let train_loss := st.loss_func st.params data.train.inp data.train.label device
  let test_loss := st.loss_func st.params data.test.inp data.test.label device
  (train_loss, test_loss,
    { st with
      train_losses := st.train_losses ++ [train_loss]
      test_losses := st.test_losses ++ [test_loss] })

/-- Embeds `Optimizer.step`.  The externally computed pieces are parameters:
`backgrad` is the gradient of the train loss produced by `train_loss.backward()`
(autograd accumulates it into the existing `.grad` buffers), and `optUpd` is
torch AdamW's parameter update `optimizer.step()` as a function of the current
parameters and gradients.  The sequencing mirrors the source: measure losses,
backpropagate, optimizer update, scheduler step, zero gradients, optional
weight renormalization, epoch increment. -/
def Optimizer.step {n : ℕ} {I L : Type} (st : Optimizer n I L)
    (data : Dataset I L) (dev : Option String)
    (backgrad : Fin n → ℝ)
    (optUpd : (Fin n → ℝ) → (Fin n → ℝ) → Fin n → ℝ) : Optimizer n I L :=
  let st1 := (st.measure_loss data dev).2.2
  let st2 := { st1 with grads := fun i => st1.grads i + backgrad i }
  let st3 := { st2 with params := optUpd st2.params st2.grads }
  let st4 := { st3 with sched_steps := st3.sched_steps + 1 }
  let st5 := { st4 with grads := fun _ => 0 }
  let st6 :=
    if st5.config.fixed_wnorm then
      let coeff := st5.start_norm / wnorm st5.params
      { st5 with params := fun i => coeff * st5.params i }
    else st5
  { st6 with epoch := st6.epoch + 1 }

/-- Embeds `Optimizer.display`.  The source indexes `train_losses[-1]` and
`test_losses[-1]`, which raises on an empty history; that failure is modelled
as `none`.  String formatting of the displayed values is idealized away: each
entry carries the real number being formatted.  `gpu` is the value of the
external `gpu_mem()` call, passed in as a parameter. -/
def Optimizer.display {n : ℕ} {I L : Type} (st : Optimizer n I L)
    (gpu : ℝ) : Option (List (String × ℝ)) :=
  match st.train_losses.getLast?, st.test_losses.getLast? with
  | some tr, some te =>
      some [("lr", appliedLR st.config st.sched_steps),
            ("train", Real.log tr),
            ("test", Real.log te),
            ("gpu", gpu)]
  | _, _ => none

/-- An externally triggered operation on a live `Optimizer`: a direct
`measure_loss` call, or a training `step` (which itself measures losses). -/
inductive Op (n : ℕ) (I L : Type) where
  | measure (data : Dataset I L) (dev : Option String)
  | step (data : Dataset I L) (dev : Option String)
      (backgrad : Fin n → ℝ)
      (optUpd : (Fin n → ℝ) → (Fin n → ℝ) → Fin n → ℝ)

/-- Applies one operation to the optimizer state. -/
def applyOp {n : ℕ} {I L : Type} (st : Optimizer n I L) : Op n I L → Optimizer n I L
  | Op.measure data dev => (st.measure_loss data dev).2.2
  | Op.step data dev backgrad optUpd => st.step data dev backgrad optUpd

/-- Applies a sequence of operations in order. -/
def runOps {n : ℕ} {I L : Type} (st : Optimizer n I L) (ops : List (Op n I L)) :
    Optimizer n I L :=
  ops.foldl applyOp st

/-- How many times one operation calls `measure_loss`: once for a direct call,
and once inside `step`. -/
def measureCalls {n : ℕ} {I L : Type} : Op n I L → ℕ
  | Op.measure _ _ => 1
  | Op.step _ _ _ _ => 1

/-! ## The `cross_entropy` loss of `optimize.py` -/

/-- The arithmetic mean of a list, `torch.mean` on a flat tensor. -/
def mean (xs : List ℝ) : ℝ := xs.sum / xs.length

/-- `F.log_softmax(x, dim=-1)` on one logit vector, idealized over the reals
(the float64 cast and the numerically stable max-shift are exact here):
entry `j` is `x j - log (∑ exp x)`. -/
def logSoftmax (x : List ℝ) : List ℝ :=
  x.map (fun v => v - Real.log ((x.map Real.exp).sum))

/-- Embeds `cross_entropy(model, inputs, labels)`.  The model output
`model(inputs)` is a batch of per-position logit vectors; `[:, -1]` keeps the
final position of each batch element; `torch.gather` with index
`labels[:, None]` picks each row's logprob at its label, giving a batch of
singletons; the loss is the negated mean of all gathered elements. -/
def cross_entropy {α : Type} (model : α → List (List (List ℝ))) (inputs : α)
    (labels : List ℕ) : ℝ :=
  let logits := (model inputs).map (fun seq => seq.getLastD [])
  let logprobs := logits.map logSoftmax
  let prediction_logprobs :=
    (logprobs.zip labels).map (fun p => [p.1.getD p.2 0])
  let loss := - mean prediction_logprobs.flatten
  loss

/-- The loss as the spec phrases it: the negative mean, over batch elements
`i`, of the log-softmax of the model's final-position logits `model(inputs)[i, -1]`
evaluated at `labels[i]`. -/
def cross_entropy_spec {α : Type} (model : α → List (List (List ℝ))) (inputs : α)
    (labels : List ℕ) : ℝ :=
  let B := (model inputs).length
  let meanLogProb :=
    ((List.range B).map (fun i =>
      (logSoftmax (((model inputs).getD i []).getLastD [])).getD (labels.getD i 0) 0)).sum
    / B
  Neg.neg meanLogProb

/-! ## The `fourier_basis` utility of `util.py` -/

/-- The dot product of two `k`-vectors. -/
def dotp {k : ℕ} (u v : Fin k → ℝ) : ℝ := ∑ n, u n * v n

/-- `tensor.norm()`: the Euclidean norm of a `k`-vector. -/
def vnorm {k : ℕ} (v : Fin k → ℝ) : ℝ := Real.sqrt (∑ n, v n ^ 2)

/-- Division of a vector by its own norm, as in `fourier_basis[-2] /= ...norm()`. -/
def normalize {k : ℕ} (v : Fin k → ℝ) : Fin k → ℝ := fun n => v n / vnorm v

/-- The constant first row `torch.ones(k) / np.sqrt(k)`. -/
def constRow (k : ℕ) : Fin k → ℝ := fun _ => 1 / Real.sqrt k

/-- The unnormalized cosine row `torch.cos(2 * torch.pi * torch.arange(k) * i / k)`. -/
def cosRow (k i : ℕ) : Fin k → ℝ := fun n => Real.cos (2 * Real.pi * n * i / k)

/-- The unnormalized sine row `torch.sin(2 * torch.pi * torch.arange(k) * i / k)`. -/
def sinRow (k i : ℕ) : Fin k → ℝ := fun n => Real.sin (2 * Real.pi * n * i / k)

/-- Embeds `fourier_basis(k)`: the constant row, then for each
`i = 1 .. k // 2` the cosine and sine rows for harmonic `i`, each divided by
its own norm (the source appends the raw rows and immediately renormalizes
the last two in place, which builds the same list). -/
def fourier_basis (k : ℕ) : List (Fin k → ℝ) :=
  [constRow k] ++
    (List.range (k / 2)).flatMap
      (fun j => [normalize (cosRow k (j + 1)), normalize (sinRow k (j + 1))])

/-! ## Characterization of the training step -/

/-- Unfolds one training step into an explicit record: losses are measured on
the pre-step parameters, the parameter update consumes the accumulated
gradients, the scheduler advances, gradients are zeroed, the optional
renormalization multiplies the updated parameters, and the epoch counter
increments. -/
theorem Optimizer.step_eq {n : ℕ} {I L : Type} (st : Optimizer n I L)
    (data : Dataset I L) (dev : Option String) (backgrad : Fin n → ℝ)
    (optUpd : (Fin n → ℝ) → (Fin n → ℝ) → Fin n → ℝ) :
    st.step data dev backgrad optUpd =
      { config := st.config
        loss_func := st.loss_func
        device := st.device
        epoch := st.epoch + 1
        start_norm := st.start_norm
        train_losses := st.train_losses ++
          [st.loss_func st.params data.train.inp data.train.label (dev.getD st.device)]
        test_losses := st.test_losses ++
          [st.loss_func st.params data.test.inp data.test.label (dev.getD st.device)]
        sched_steps := st.sched_steps + 1
        params :=
          if st.config.fixed_wnorm then
            fun i =>
              (st.start_norm /
                  wnorm (optUpd st.params (fun j => st.grads j + backgrad j))) *
                optUpd st.params (fun j => st.grads j + backgrad j) i
          else optUpd st.params (fun j => st.grads j + backgrad j)
        grads := fun _ => 0 } := by
  cases st
  simp only [Optimizer.step, Optimizer.measure_loss]
  split <;> rfl

/-- C6: `Optimizer.step` records the train and test losses of the model as it
was before the step's gradient update and renormalization, applies one
optimizer update to the pre-step parameters and accumulated gradients,
advances the scheduler once, zeroes the gradients, renormalizes exactly when
`fixed_wnorm` is set, and increments the epoch. -/
theorem Optimizer.step_order {n : ℕ} {I L : Type} (st : Optimizer n I L)
    (data : Dataset I L) (dev : Option String) (backgrad : Fin n → ℝ)
    (optUpd : (Fin n → ℝ) → (Fin n → ℝ) → Fin n → ℝ) :
    (st.step data dev backgrad optUpd).train_losses =
        st.train_losses ++
          [st.loss_func st.params data.train.inp data.train.label (dev.getD st.device)] ∧
    (st.step data dev backgrad optUpd).test_losses =
        st.test_losses ++
          [st.loss_func st.params data.test.inp data.test.label (dev.getD st.device)] ∧
    (st.step data dev backgrad optUpd).params =
        (if st.config.fixed_wnorm then
          fun i =>
            (st.start_norm /
                wnorm (optUpd st.params (fun j => st.grads j + backgrad j))) *
              optUpd st.params (fun j => st.grads j + backgrad j) i
        else optUpd st.params (fun j => st.grads j + backgrad j)) ∧
    (st.step data dev backgrad optUpd).sched_steps = st.sched_steps + 1 ∧
    (st.step data dev backgrad optUpd).grads = (fun _ => 0) ∧
    (st.step data dev backgrad optUpd).epoch = st.epoch + 1 := by
  rw [Optimizer.step_eq]
  exact ⟨rfl, rfl, rfl, rfl, rfl, rfl⟩

/-- C10: a training step increments `epoch` by exactly one and leaves
`config`, `loss_func`, `device` and `start_norm` untouched, and the only
other state-modifying operation, `measure_loss`, also leaves `config` and
`start_norm` (as well as `loss_func`, `device` and `epoch`) untouched. -/
theorem Optimizer.step_frame {n : ℕ} {I L : Type} (st : Optimizer n I L)
    (data : Dataset I L) (dev : Option String) (backgrad : Fin n → ℝ)
    (optUpd : (Fin n → ℝ) → (Fin n → ℝ) → Fin n → ℝ) :
    (st.step data dev backgrad optUpd).epoch = st.epoch + 1 ∧
    (st.step data dev backgrad optUpd).config = st.config ∧
    (st.step data dev backgrad optUpd).loss_func = st.loss_func ∧
    (st.step data dev backgrad optUpd).device = st.device ∧
    (st.step data dev backgrad optUpd).start_norm = st.start_norm ∧
    (st.measure_loss data dev).2.2.config = st.config ∧
    (st.measure_loss data dev).2.2.start_norm = st.start_norm ∧
    (st.measure_loss data dev).2.2.loss_func = st.loss_func ∧
    (st.measure_loss data dev).2.2.device = st.device ∧
    (st.measure_loss data dev).2.2.epoch = st.epoch := by
  rw [Optimizer.step_eq]
  exact ⟨rfl, rfl, rfl, rfl, rfl, rfl, rfl, rfl, rfl, rfl⟩

/-! ## Weight renormalization -/

/-- The spec-modelled `wnorm` is nonnegative. -/
theorem wnorm_nonneg {n : ℕ} (p : Fin n → ℝ) : 0 ≤ wnorm p :=
  Real.sqrt_nonneg _

/-- The spec-modelled `wnorm` is positively homogeneous of degree 1 on
nonnegative scalings. -/
theorem wnorm_smul {n : ℕ} (c : ℝ) (hc : 0 ≤ c) (p : Fin n → ℝ) :
    wnorm (fun i => c * p i) = c * wnorm p := by
  unfold wnorm
  have h1 : ∑ i, (c * p i) ^ 2 = c ^ 2 * ∑ i, p i ^ 2 := by
    rw [Finset.mul_sum]
    exact Finset.sum_congr rfl (fun i _ => by ring)
  rw [h1, Real.sqrt_mul (sq_nonneg c), Real.sqrt_sq hc]

/-- C3: with `fixed_wnorm` set, a step rescales every parameter of the updated
model by `start_norm / wnorm`, and provided that norm is nonzero the rescaled
model's `wnorm` equals the `start_norm` recorded at construction (which is
nonnegative, being a norm); with `fixed_wnorm` unset, the updated parameters
are left exactly as the optimizer update produced them. -/
theorem Optimizer.step_fixed_wnorm {n : ℕ} {I L : Type} (st : Optimizer n I L)
    (data : Dataset I L) (dev : Option String) (backgrad : Fin n → ℝ)
    (optUpd : (Fin n → ℝ) → (Fin n → ℝ) → Fin n → ℝ)
    (hs : 0 ≤ st.start_norm) :
    (st.config.fixed_wnorm = true →
      (st.step data dev backgrad optUpd).params =
        (fun i =>
          (st.start_norm /
              wnorm (optUpd st.params (fun j => st.grads j + backgrad j))) *
            optUpd st.params (fun j => st.grads j + backgrad j) i) ∧
      (wnorm (optUpd st.params (fun j => st.grads j + backgrad j)) ≠ 0 →
        wnorm (st.step data dev backgrad optUpd).params = st.start_norm)) ∧
    (st.config.fixed_wnorm = false →
      (st.step data dev backgrad optUpd).params =
        optUpd st.params (fun j => st.grads j + backgrad j)) := by
  rw [Optimizer.step_eq]
  refine ⟨fun hfix => ⟨?_, fun hw => ?_⟩, fun hfix => ?_⟩
  · simp only [hfix, if_true]
  · simp only [hfix, if_true]
    rw [wnorm_smul _ (div_nonneg hs (wnorm_nonneg _)) _]
    exact div_mul_cancel₀ st.start_norm hw
  · simp only [hfix, Bool.false_eq_true, if_false]

/-- Concrete one-parameter optimizer state used to instantiate theorems with
hypotheses. -/
def wStateC3 : Optimizer 1 Unit Unit :=
  Optimizer.init (OptimConfig.mk 1 1 10 true) (fun _ => 1) (fun _ _ _ _ => 0) "cuda"

/-- Concrete trivial dataset used to instantiate theorems with hypotheses. -/
def wData : Dataset Unit Unit := ⟨⟨(), ()⟩, ⟨(), ()⟩⟩

/-- Concrete parameter-update function (identity on parameters) used to
instantiate theorems with hypotheses. -/
def wUpd : (Fin 1 → ℝ) → (Fin 1 → ℝ) → Fin 1 → ℝ := fun p _ => p

/-- Witness for C3 at a concrete one-parameter state with `fixed_wnorm` set. -/
theorem Optimizer.step_fixed_wnorm_witness :
    0 ≤ wStateC3.start_norm ∧
    ((wStateC3.config.fixed_wnorm = true →
      (wStateC3.step wData none (fun _ => 0) wUpd).params =
        (fun i =>
          (wStateC3.start_norm /
              wnorm (wUpd wStateC3.params (fun j => wStateC3.grads j + 0))) *
            wUpd wStateC3.params (fun j => wStateC3.grads j + 0) i) ∧
      (wnorm (wUpd wStateC3.params (fun j => wStateC3.grads j + 0)) ≠ 0 →
        wnorm (wStateC3.step wData none (fun _ => 0) wUpd).params =
          wStateC3.start_norm)) ∧
     (wStateC3.config.fixed_wnorm = false →
      (wStateC3.step wData none (fun _ => 0) wUpd).params =
        wUpd wStateC3.params (fun j => wStateC3.grads j + 0))) :=
  ⟨wnorm_nonneg _,
    Optimizer.step_fixed_wnorm wStateC3 wData none (fun _ => 0) wUpd (wnorm_nonneg _)⟩

/-! ## Loss-history bookkeeping -/

/-- Each operation grows both loss histories by exactly one entry. -/
theorem applyOp_losses_length {n : ℕ} {I L : Type} (st : Optimizer n I L)
    (op : Op n I L) :
    (applyOp st op).train_losses.length = st.train_losses.length + 1 ∧
    (applyOp st op).test_losses.length = st.test_losses.length + 1 := by
  cases op with
  | measure data dev => simp [applyOp, Optimizer.measure_loss]
  | step data dev backgrad optUpd => simp [applyOp, Optimizer.step_eq]

/-- Running a sequence of operations grows both loss histories by the total
number of `measure_loss` calls those operations make. -/
theorem runOps_losses_length {n : ℕ} {I L : Type} (ops : List (Op n I L))
    (st : Optimizer n I L) :
    (runOps st ops).train_losses.length
        = st.train_losses.length + (ops.map measureCalls).sum ∧
    (runOps st ops).test_losses.length
        = st.test_losses.length + (ops.map measureCalls).sum := by
  induction ops generalizing st with
  | nil => simp [runOps]
  | cons op ops ih =>
    have h := applyOp_losses_length st op
    have h2 := ih (applyOp st op)
    have hrw : runOps st (op :: ops) = runOps (applyOp st op) ops := rfl
    have hm : measureCalls op = 1 := by cases op <;> rfl
    rw [hrw]
    simp only [List.map_cons, List.sum_cons, hm]
    omega

/-- C4: `measure_loss` appends exactly one entry to each loss history and
returns the measured pair, and after any sequence of operations on a freshly
constructed optimizer both histories have length equal to the number of
`measure_loss` calls made (each `step` makes one); in particular the two
histories always have equal length. -/
theorem Optimizer.measure_loss_records {n : ℕ} {I L : Type}
    (st : Optimizer n I L) (data : Dataset I L) (dev : Option String) :
    ((st.measure_loss data dev).2.2.train_losses
        = st.train_losses ++ [(st.measure_loss data dev).1] ∧
     (st.measure_loss data dev).2.2.test_losses
        = st.test_losses ++ [(st.measure_loss data dev).2.1] ∧
     (st.measure_loss data dev).2.2.train_losses.length
        = st.train_losses.length + 1 ∧
     (st.measure_loss data dev).2.2.test_losses.length
        = st.test_losses.length + 1) ∧
    (∀ (cfg : OptimConfig) (p0 : Fin n → ℝ)
        (lf : (Fin n → ℝ) → I → L → String → ℝ) (devc : String)
        (ops : List (Op n I L)),
      (runOps (Optimizer.init cfg p0 lf devc) ops).train_losses.length
          = (ops.map measureCalls).sum ∧
      (runOps (Optimizer.init cfg p0 lf devc) ops).test_losses.length
          = (ops.map measureCalls).sum) := by
  refine ⟨⟨rfl, rfl, by simp [Optimizer.measure_loss], by simp [Optimizer.measure_loss]⟩,
    fun cfg p0 lf devc ops => ?_⟩
  have h := runOps_losses_length ops (Optimizer.init cfg p0 lf devc)
  simpa [Optimizer.init] using h

/-! ## The learning-rate schedule -/

/-- C5: the applied learning rate after `s` scheduler steps is the base rate
times `min (s / 10) 1`; for a nonnegative base rate it never exceeds the
configured rate and equals it from the 10th step onward. -/
theorem appliedLR_warmup (cfg : OptimConfig) (s : ℕ)
    (h : 0 ≤ cfg.learning_rate) :
    appliedLR cfg s = cfg.learning_rate * min ((s : ℝ) / 10) 1 ∧
    appliedLR cfg s ≤ cfg.learning_rate ∧
    (10 ≤ s → appliedLR cfg s = cfg.learning_rate) := by
  refine ⟨rfl, ?_, fun hs => ?_⟩
  · have h1 : lr_lambda s ≤ 1 := min_le_right _ _
    have h2 := mul_le_mul_of_nonneg_left h1 h
    simpa [appliedLR] using h2
  · have h10 : (1 : ℝ) ≤ (s : ℝ) / 10 := by
      have : (10 : ℝ) ≤ (s : ℝ) := by exact_mod_cast hs
      linarith
    simp [appliedLR, lr_lambda, min_eq_right h10]

/-- Witness for C5 at a unit base rate after 12 scheduler steps. -/
theorem appliedLR_warmup_witness :
    0 ≤ (OptimConfig.mk 1 1 10 false).learning_rate ∧
    (appliedLR (OptimConfig.mk 1 1 10 false) 12 = 1 * min ((12 : ℝ) / 10) 1 ∧
     appliedLR (OptimConfig.mk 1 1 10 false) 12 ≤ 1 ∧
     (10 ≤ 12 → appliedLR (OptimConfig.mk 1 1 10 false) 12 = 1)) :=
  ⟨by norm_num, appliedLR_warmup (OptimConfig.mk 1 1 10 false) 12 (by norm_num)⟩

/-! ## The display dictionary -/

/-- C7: with at least one recorded loss measurement, `display` succeeds and
produces exactly the keys `lr`, `train`, `test`, `gpu`, in that order, where
`train` and `test` carry the natural logarithm of the most recent history
entries and `lr` carries the scheduler's most recently applied rate. -/
theorem Optimizer.display_spec {n : ℕ} {I L : Type} (st : Optimizer n I L)
    (gpu : ℝ) (htr : st.train_losses ≠ []) (hte : st.test_losses ≠ []) :
    st.display gpu =
      some [("lr", appliedLR st.config st.sched_steps),
            ("train", Real.log (st.train_losses.getLast htr)),
            ("test", Real.log (st.test_losses.getLast hte)),
            ("gpu", gpu)] ∧
    (st.display gpu).map (fun l => l.map Prod.fst) =
      some ["lr", "train", "test", "gpu"] := by
  have h1 := List.getLast?_eq_getLast_of_ne_nil htr
  have h2 := List.getLast?_eq_getLast_of_ne_nil hte
  have hd : st.display gpu =
      some [("lr", appliedLR st.config st.sched_steps),
            ("train", Real.log (st.train_losses.getLast htr)),
            ("test", Real.log (st.test_losses.getLast hte)),
            ("gpu", gpu)] := by
    simp only [Optimizer.display, h1, h2]
  exact ⟨hd, by rw [hd]; rfl⟩

/-- Concrete state with one recorded loss pair, used to instantiate `display`
theorems. -/
def wStateC7 : Optimizer 1 Unit Unit :=
  (Optimizer.init (OptimConfig.mk 1 1 10 false) (fun _ => 1)
      (fun _ _ _ _ => 1) "cuda").measure_loss wData none |>.2.2

/-- Witness for C7 at a concrete state with one recorded loss pair. -/
theorem Optimizer.display_spec_witness :
    wStateC7.train_losses ≠ [] ∧ wStateC7.test_losses ≠ [] ∧
    ∀ (htr : wStateC7.train_losses ≠ []) (hte : wStateC7.test_losses ≠ []),
      wStateC7.display 0 =
        some [("lr", appliedLR wStateC7.config wStateC7.sched_steps),
              ("train", Real.log (wStateC7.train_losses.getLast htr)),
              ("test", Real.log (wStateC7.test_losses.getLast hte)),
              ("gpu", 0)] ∧
      (wStateC7.display 0).map (fun l => l.map Prod.fst) =
        some ["lr", "train", "test", "gpu"] := by
  have htr : wStateC7.train_losses ≠ [] := by
    simp [wStateC7, Optimizer.measure_loss, Optimizer.init]
  have hte : wStateC7.test_losses ≠ [] := by
    simp [wStateC7, Optimizer.measure_loss, Optimizer.init]
  exact ⟨htr, hte, fun htr hte => Optimizer.display_spec wStateC7 0 htr hte⟩

/-- C9: `display` fails (modelled as `none`) exactly when one of the loss
histories is empty, which is where the source's `[-1]` indexing raises. -/
theorem Optimizer.display_none_iff {n : ℕ} {I L : Type} (st : Optimizer n I L)
    (gpu : ℝ) :
    st.display gpu = none ↔ st.train_losses = [] ∨ st.test_losses = [] := by
  rcases h1 : st.train_losses.getLast? with _ | tr <;>
    rcases h2 : st.test_losses.getLast? with _ | te
  · rw [List.getLast?_eq_none_iff] at h1 h2
    simp only [Optimizer.display, List.getLast?_eq_none_iff.mpr h1,
      List.getLast?_eq_none_iff.mpr h2]
    simp [h1, h2]
  · rw [List.getLast?_eq_none_iff] at h1
    simp only [Optimizer.display, List.getLast?_eq_none_iff.mpr h1, h2]
    simp [h1]
  · rw [List.getLast?_eq_none_iff] at h2
    simp only [Optimizer.display, h1, List.getLast?_eq_none_iff.mpr h2]
    simp [h2]
  · have htr : st.train_losses ≠ [] := by
      intro hc
      rw [List.getLast?_eq_none_iff.mpr hc] at h1
      cases h1
    have hte : st.test_losses ≠ [] := by
      intro hc
      rw [List.getLast?_eq_none_iff.mpr hc] at h2
      cases h2
    simp only [Optimizer.display, h1, h2]
    simp [htr, hte]

/-! ## Cross-entropy: implementation versus specification -/

/-- Flattening a list of singletons recovers the mapped list. -/
theorem flatten_map_singleton {β γ : Type} (l : List β) (f : β → γ) :
    (l.map (fun a => [f a])).flatten = l.map f := by
  induction l with
  | nil => rfl
  | cons a l ih => simp [ih]

/-- A map over the zip of two equal-length lists is a map over their common
index range (the defaults are never consulted). -/
theorem zip_map_eq_range {β γ δ : Type} (f : β → γ → δ) (d1 : β) (d2 : γ) :
    ∀ (u : List β) (v : List γ), u.length = v.length →
      (u.zip v).map (fun p => f p.1 p.2)
        = (List.range u.length).map (fun i => f (u.getD i d1) (v.getD i d2))
  | [], [], _ => rfl
  | [], b :: v, h => by simp at h
  | a :: u, [], h => by simp at h
  | a :: u, b :: v, h => by
    have h' : u.length = v.length := by simpa using h
    have ih := zip_map_eq_range f d1 d2 u v h'
    simp only [List.zip_cons_cons, List.map_cons, List.length_cons,
      List.range_succ_eq_map, List.map_map]
    refine congrArg₂ _ rfl ?_
    rw [ih]
    rfl

/-- Reading the `i`-th final-position log-softmax row out of the mapped batch
equals computing it from the `i`-th batch element. -/
theorem getD_logits_map (out : List (List (List ℝ))) (i : ℕ) :
    ((out.map (fun seq => seq.getLastD [])).map logSoftmax).getD i (logSoftmax [])
      = logSoftmax ((out.getD i []).getLastD []) := by
  rw [List.getD_map]
  have h : ((out.map (fun seq : List (List ℝ) => seq.getLastD ([] : List ℝ))).getD i
        (([] : List (List ℝ)).getLastD ([] : List ℝ)))
      = (out.getD i ([] : List (List ℝ))).getLastD ([] : List ℝ) :=
    List.getD_map out ([] : List (List ℝ)) (fun seq => seq.getLastD ([] : List ℝ))
  simp only [List.getLastD_nil] at h
  rw [h]

/-- C1: `cross_entropy` returns the negative mean, over batch elements `i`, of
the log-softmax of the model's final-position logits evaluated at
`labels[i]`, as the spec states. -/
theorem cross_entropy_eq_spec {α : Type} (model : α → List (List (List ℝ)))
    (inputs : α) (labels : List ℕ)
    (hlen : labels.length = (model inputs).length) :
    cross_entropy model inputs labels = cross_entropy_spec model inputs labels := by
  simp only [cross_entropy, cross_entropy_spec, mean]
  rw [flatten_map_singleton]
  have hzlen :
      (((model inputs).map (fun seq => seq.getLastD [])).map logSoftmax).length
        = labels.length := by
    simp [hlen]
  rw [zip_map_eq_range (fun (a : List ℝ) (b : ℕ) => a.getD b 0) (logSoftmax []) 0
    _ _ hzlen]
  have hfun :
      (fun i =>
        ((((model inputs).map (fun seq => seq.getLastD [])).map logSoftmax).getD i
            (logSoftmax [])).getD (labels.getD i 0) 0)
        = (fun i =>
        (logSoftmax (((model inputs).getD i []).getLastD [])).getD
          (labels.getD i 0) 0) :=
    funext fun i => by rw [getD_logits_map]
  rw [hfun]
  simp

/-- Witness for C1 at a one-element batch with a two-logit vocabulary. -/
theorem cross_entropy_eq_spec_witness :
    ([0] : List ℕ).length = ((fun _ : Unit => [[[(1 : ℝ), 2]]]) ()).length ∧
    cross_entropy (fun _ : Unit => [[[(1 : ℝ), 2]]]) () [0]
      = cross_entropy_spec (fun _ : Unit => [[[(1 : ℝ), 2]]]) () [0] :=
  ⟨rfl, cross_entropy_eq_spec (fun _ : Unit => [[[(1 : ℝ), 2]]]) () [0] rfl⟩

/-! ## Trigonometric sums underlying the Fourier basis -/

/-- Product-to-sum identity for two cosines. -/
theorem cos_mul_cos (x y : ℝ) :
    Real.cos x * Real.cos y = (Real.cos (x - y) + Real.cos (x + y)) / 2 := by
  rw [Real.cos_sub, Real.cos_add]
  ring

/-- Product-to-sum identity for two sines. -/
theorem sin_mul_sin (x y : ℝ) :
    Real.sin x * Real.sin y = (Real.cos (x - y) - Real.cos (x + y)) / 2 := by
  rw [Real.cos_sub, Real.cos_add]
  ring

/-- Product-to-sum identity for a cosine and a sine. -/
theorem cos_mul_sin (x y : ℝ) :
    Real.cos x * Real.sin y = (Real.sin (x + y) - Real.sin (x - y)) / 2 := by
  rw [Real.sin_add, Real.sin_sub]
  ring

/-- The `k` complex `k`-th roots of unity at a frequency `m` not divisible by
`k` sum to zero. -/
theorem sum_exp_eq_zero (k : ℕ) (hk : 0 < k) (m : ℤ) (hm : ¬ (k : ℤ) ∣ m) :
    ∑ n ∈ Finset.range k,
      Complex.exp (((2 * Real.pi * m * n / k : ℝ) : ℂ) * Complex.I) = 0 := by
  have hk0 : (k : ℝ) ≠ 0 := Nat.cast_ne_zero.mpr hk.ne'
  have hkC : (k : ℂ) ≠ 0 := Nat.cast_ne_zero.mpr hk.ne'
  set z : ℂ := Complex.exp (((2 * Real.pi * m / k : ℝ) : ℂ) * Complex.I) with hz
  have hzn : ∀ n : ℕ,
      Complex.exp (((2 * Real.pi * m * n / k : ℝ) : ℂ) * Complex.I) = z ^ n := by
    intro n
    rw [hz, ← Complex.exp_nat_mul]
    congr 1
    push_cast
    ring
  have hz1 : z ≠ 1 := by
    intro h1
    rw [hz, Complex.exp_eq_one_iff] at h1
    obtain ⟨t, ht⟩ := h1
    have ht2 : ((2 * Real.pi * m / k : ℝ) : ℂ) * Complex.I
        = ((t : ℂ) * (2 * (Real.pi : ℂ))) * Complex.I := by
      rw [ht]
      ring
    have ht3 := mul_right_cancel₀ Complex.I_ne_zero ht2
    have ht4 : (2 * Real.pi * m / k : ℝ) = (t : ℝ) * (2 * Real.pi) := by
      exact_mod_cast ht3
    have h2pi : (2 * Real.pi) ≠ 0 := by positivity
    have hmt : (m : ℝ) = (t : ℝ) * k := by
      apply mul_left_cancel₀ h2pi
      calc 2 * Real.pi * (m : ℝ) = (2 * Real.pi * m / k) * k := by field_simp
      _ = ((t : ℝ) * (2 * Real.pi)) * k := by rw [ht4]
      _ = 2 * Real.pi * ((t : ℝ) * k) := by ring
    have hmt' : m = t * (k : ℤ) := by exact_mod_cast hmt
    exact hm ⟨t, by rw [hmt']; ring⟩
  have hzk : z ^ k = 1 := by
    rw [hz, ← Complex.exp_nat_mul]
    have harg : (k : ℂ) * (((2 * Real.pi * m / k : ℝ) : ℂ) * Complex.I)
        = (m : ℂ) * (2 * (Real.pi : ℂ) * Complex.I) := by
      push_cast
      field_simp
      ring
    rw [harg]
    exact_mod_cast Complex.exp_int_mul_two_pi_mul_I m
  calc ∑ n ∈ Finset.range k,
        Complex.exp (((2 * Real.pi * m * n / k : ℝ) : ℂ) * Complex.I)
      = ∑ n ∈ Finset.range k, z ^ n := Finset.sum_congr rfl (fun n _ => hzn n)
  _ = (z ^ k - 1) / (z - 1) := geom_sum_eq hz1 k
  _ = 0 := by rw [hzk]; simp

/-- Cosine sum over a full period at a frequency not divisible by `k`. -/
theorem sum_cos_eq_zero (k : ℕ) (hk : 0 < k) (m : ℤ) (hm : ¬ (k : ℤ) ∣ m) :
    ∑ n ∈ Finset.range k, Real.cos (2 * Real.pi * m * n / k) = 0 := by
  have h2 := congrArg Complex.re (sum_exp_eq_zero k hk m hm)
  rw [Complex.re_sum, Complex.zero_re] at h2
  calc ∑ n ∈ Finset.range k, Real.cos (2 * Real.pi * m * n / k)
      = ∑ n ∈ Finset.range k,
          (Complex.exp (((2 * Real.pi * m * n / k : ℝ) : ℂ) * Complex.I)).re :=
        Finset.sum_congr rfl (fun n _ => (Complex.exp_ofReal_mul_I_re _).symm)
  _ = 0 := h2

/-- Sine sum over a full period vanishes at every integer frequency. -/
theorem sum_sin_eq_zero (k : ℕ) (hk : 0 < k) (m : ℤ) :
    ∑ n ∈ Finset.range k, Real.sin (2 * Real.pi * m * n / k) = 0 := by
  by_cases hm : (k : ℤ) ∣ m
  · obtain ⟨q, rfl⟩ := hm
    refine Finset.sum_eq_zero fun n _ => ?_
    have hk0 : (k : ℝ) ≠ 0 := Nat.cast_ne_zero.mpr hk.ne'
    have harg : 2 * Real.pi * (((k : ℤ) * q : ℤ) : ℝ) * n / k
        = (((q : ℤ) * n : ℤ) : ℝ) * (2 * Real.pi) := by
      push_cast
      field_simp
      ring
    rw [harg]
    have := Real.sin_int_mul_pi (2 * q * n)
    calc Real.sin ((((q : ℤ) * n : ℤ) : ℝ) * (2 * Real.pi))
        = Real.sin (((2 * q * n : ℤ) : ℝ) * Real.pi) := by push_cast; ring_nf
    _ = 0 := Real.sin_int_mul_pi (2 * q * n)
  · have h2 := congrArg Complex.im (sum_exp_eq_zero k hk m hm)
    rw [Complex.im_sum, Complex.zero_im] at h2
    calc ∑ n ∈ Finset.range k, Real.sin (2 * Real.pi * m * n / k)
        = ∑ n ∈ Finset.range k,
            (Complex.exp (((2 * Real.pi * m * n / k : ℝ) : ℂ) * Complex.I)).im :=
          Finset.sum_congr rfl (fun n _ => (Complex.exp_ofReal_mul_I_im _).symm)
    _ = 0 := h2

/-- A positive integer smaller than `k` is not divisible by `k`. -/
theorem int_not_dvd (k : ℕ) (x : ℤ) (h1 : 0 < x) (h2 : x < k) :
    ¬ (k : ℤ) ∣ x := fun hd => absurd (Int.le_of_dvd h1 hd) (by omega)

/-- The difference of two distinct naturals below `k` is not divisible by `k`. -/
theorem int_not_dvd_sub (k i j : ℕ) (hij : i ≠ j) (hi : i < k) (hj : j < k) :
    ¬ (k : ℤ) ∣ ((i : ℤ) - j) := by
  intro hd
  have hd' : (k : ℤ) ∣ ((j : ℤ) - i) := by
    have := dvd_neg.mpr hd
    simpa using this
  rcases Nat.lt_or_ge i j with h | h
  · exact absurd (Int.le_of_dvd (by omega) hd') (by omega)
  · exact absurd (Int.le_of_dvd (by omega) hd) (by omega)

/-! ## Dot products of the raw Fourier rows -/

/-- The dot product is symmetric. -/
theorem dotp_comm {k : ℕ} (u v : Fin k → ℝ) : dotp u v = dotp v u :=
  Finset.sum_congr rfl (fun _ _ => mul_comm _ _)

/-- The constant row has unit norm. -/
theorem vnorm_constRow (k : ℕ) (hk : 0 < k) : vnorm (constRow k) = 1 := by
  unfold vnorm constRow
  have hs : ∑ _x : Fin k, (1 / Real.sqrt k) ^ 2 = 1 := by
    rw [Finset.sum_const, Finset.card_univ, Fintype.card_fin, nsmul_eq_mul]
    rw [div_pow, one_pow, Real.sq_sqrt (Nat.cast_nonneg k)]
    field_simp
  rw [hs, Real.sqrt_one]

/-- The constant row is orthogonal to every included cosine row. -/
theorem dotp_const_cos (k i : ℕ) (hk : 0 < k) (hi0 : 0 < i) (hik : i < k) :
    dotp (constRow k) (cosRow k i) = 0 := by
  unfold dotp constRow cosRow
  rw [Fin.sum_univ_eq_sum_range
    (fun n => (1 / Real.sqrt k) * Real.cos (2 * Real.pi * n * i / k)) k]
  have hterm : ∀ n ∈ Finset.range k,
      (1 / Real.sqrt k) * Real.cos (2 * Real.pi * n * i / k)
        = (1 / Real.sqrt k) * Real.cos (2 * Real.pi * ((i : ℤ) : ℝ) * n / k) := by
    intro n _
    have e : 2 * Real.pi * (n : ℝ) * i / k = 2 * Real.pi * ((i : ℤ) : ℝ) * n / k := by
      push_cast
      ring
    rw [e]
  rw [Finset.sum_congr rfl hterm, ← Finset.mul_sum,
    sum_cos_eq_zero k hk i (int_not_dvd k i (by omega) (by omega)), mul_zero]

/-- The constant row is orthogonal to every sine row. -/
theorem dotp_const_sin (k j : ℕ) (hk : 0 < k) :
    dotp (constRow k) (sinRow k j) = 0 := by
  unfold dotp constRow sinRow
  rw [Fin.sum_univ_eq_sum_range
    (fun n => (1 / Real.sqrt k) * Real.sin (2 * Real.pi * n * j / k)) k]
  have hterm : ∀ n ∈ Finset.range k,
      (1 / Real.sqrt k) * Real.sin (2 * Real.pi * n * j / k)
        = (1 / Real.sqrt k) * Real.sin (2 * Real.pi * ((j : ℤ) : ℝ) * n / k) := by
    intro n _
    have e : 2 * Real.pi * (n : ℝ) * j / k = 2 * Real.pi * ((j : ℤ) : ℝ) * n / k := by
      push_cast
      ring
    rw [e]
  rw [Finset.sum_congr rfl hterm, ← Finset.mul_sum, sum_sin_eq_zero k hk j, mul_zero]

/-- Two cosine rows at distinct admissible frequencies are orthogonal. -/
theorem dotp_cos_cos (k i j : ℕ) (hk : 0 < k) (hne : i ≠ j)
    (hik : i < k) (hjk : j < k) (hsum : i + j < k) :
    dotp (cosRow k i) (cosRow k j) = 0 := by
  unfold dotp cosRow
  rw [Fin.sum_univ_eq_sum_range
    (fun n => Real.cos (2 * Real.pi * n * i / k) * Real.cos (2 * Real.pi * n * j / k)) k]
  have hterm : ∀ n ∈ Finset.range k,
      Real.cos (2 * Real.pi * n * i / k) * Real.cos (2 * Real.pi * n * j / k)
        = (Real.cos (2 * Real.pi * (((i : ℤ) - j : ℤ) : ℝ) * n / k)
            + Real.cos (2 * Real.pi * (((i : ℤ) + j : ℤ) : ℝ) * n / k)) / 2 := by
    intro n _
    rw [cos_mul_cos]
    have e1 : 2 * Real.pi * (n : ℝ) * i / k - 2 * Real.pi * n * j / k
        = 2 * Real.pi * (((i : ℤ) - j : ℤ) : ℝ) * n / k := by
      push_cast
      ring
    have e2 : 2 * Real.pi * (n : ℝ) * i / k + 2 * Real.pi * n * j / k
        = 2 * Real.pi * (((i : ℤ) + j : ℤ) : ℝ) * n / k := by
      push_cast
      ring
    rw [e1, e2]
  rw [Finset.sum_congr rfl hterm, ← Finset.sum_div, Finset.sum_add_distrib,
    sum_cos_eq_zero k hk ((i : ℤ) - j) (int_not_dvd_sub k i j hne hik hjk),
    sum_cos_eq_zero k hk ((i : ℤ) + j) (int_not_dvd k _ (by omega) (by omega))]
  norm_num

/-- Two sine rows at distinct admissible frequencies are orthogonal. -/
theorem dotp_sin_sin (k i j : ℕ) (hk : 0 < k) (hne : i ≠ j)
    (hik : i < k) (hjk : j < k) (hsum : i + j < k) :
    dotp (sinRow k i) (sinRow k j) = 0 := by
  unfold dotp sinRow
  rw [Fin.sum_univ_eq_sum_range
    (fun n => Real.sin (2 * Real.pi * n * i / k) * Real.sin (2 * Real.pi * n * j / k)) k]
  have hterm : ∀ n ∈ Finset.range k,
      Real.sin (2 * Real.pi * n * i / k) * Real.sin (2 * Real.pi * n * j / k)
        = (Real.cos (2 * Real.pi * (((i : ℤ) - j : ℤ) : ℝ) * n / k)
            - Real.cos (2 * Real.pi * (((i : ℤ) + j : ℤ) : ℝ) * n / k)) / 2 := by
    intro n _
    rw [sin_mul_sin]
    have e1 : 2 * Real.pi * (n : ℝ) * i / k - 2 * Real.pi * n * j / k
        = 2 * Real.pi * (((i : ℤ) - j : ℤ) : ℝ) * n / k := by
      push_cast
      ring
    have e2 : 2 * Real.pi * (n : ℝ) * i / k + 2 * Real.pi * n * j / k
        = 2 * Real.pi * (((i : ℤ) + j : ℤ) : ℝ) * n / k := by
      push_cast
      ring
    rw [e1, e2]
  rw [Finset.sum_congr rfl hterm, ← Finset.sum_div, Finset.sum_sub_distrib,
    sum_cos_eq_zero k hk ((i : ℤ) - j) (int_not_dvd_sub k i j hne hik hjk),
    sum_cos_eq_zero k hk ((i : ℤ) + j) (int_not_dvd k _ (by omega) (by omega))]
  norm_num

/-- Every cosine row is orthogonal to every sine row. -/
theorem dotp_cos_sin (k i j : ℕ) (hk : 0 < k) :
    dotp (cosRow k i) (sinRow k j) = 0 := by
  unfold dotp cosRow sinRow
  rw [Fin.sum_univ_eq_sum_range
    (fun n => Real.cos (2 * Real.pi * n * i / k) * Real.sin (2 * Real.pi * n * j / k)) k]
  have hterm : ∀ n ∈ Finset.range k,
      Real.cos (2 * Real.pi * n * i / k) * Real.sin (2 * Real.pi * n * j / k)
        = (Real.sin (2 * Real.pi * (((i : ℤ) + j : ℤ) : ℝ) * n / k)
            - Real.sin (2 * Real.pi * (((i : ℤ) - j : ℤ) : ℝ) * n / k)) / 2 := by
    intro n _
    rw [cos_mul_sin]
    have e1 : 2 * Real.pi * (n : ℝ) * i / k + 2 * Real.pi * n * j / k
        = 2 * Real.pi * (((i : ℤ) + j : ℤ) : ℝ) * n / k := by
      push_cast
      ring
    have e2 : 2 * Real.pi * (n : ℝ) * i / k - 2 * Real.pi * n * j / k
        = 2 * Real.pi * (((i : ℤ) - j : ℤ) : ℝ) * n / k := by
      push_cast
      ring
    rw [e1, e2]
  rw [Finset.sum_congr rfl hterm, ← Finset.sum_div, Finset.sum_sub_distrib,
    sum_sin_eq_zero k hk ((i : ℤ) + j), sum_sin_eq_zero k hk ((i : ℤ) - j)]
  norm_num

/-! ## Normalization -/

/-- `vnorm` and the spec-modelled `wnorm` are the same Euclidean norm. -/
theorem vnorm_eq_wnorm {k : ℕ} (v : Fin k → ℝ) : vnorm v = wnorm v := rfl

/-- The norm vanishes exactly on the zero vector. -/
theorem vnorm_eq_zero_iff {k : ℕ} (v : Fin k → ℝ) :
    vnorm v = 0 ↔ ∀ n, v n = 0 := by
  unfold vnorm
  constructor
  · intro h n
    have hs : ∑ i, v i ^ 2 = 0 :=
      (Real.sqrt_eq_zero (Finset.sum_nonneg fun i _ => sq_nonneg _)).mp h
    have := (Finset.sum_eq_zero_iff_of_nonneg fun i _ => sq_nonneg (v i)).mp hs
        n (Finset.mem_univ n)
    exact pow_eq_zero_iff (by norm_num) |>.mp this
  · intro h
    have hs : ∑ i, v i ^ 2 = 0 :=
      Finset.sum_eq_zero fun i _ => by rw [h i]; ring
    rw [hs, Real.sqrt_zero]

/-- The norm used for `vnorm` is nonnegative. -/
theorem vnorm_nonneg {k : ℕ} (v : Fin k → ℝ) : 0 ≤ vnorm v :=
  Real.sqrt_nonneg _

/-- Dividing a vector with nonzero norm by its norm yields a unit vector. -/
theorem vnorm_normalize {k : ℕ} (v : Fin k → ℝ) (hv : vnorm v ≠ 0) :
    vnorm (normalize v) = 1 := by
  have hrw : normalize v = fun n => (1 / vnorm v) * v n := by
    funext n
    unfold normalize
    ring
  rw [hrw, vnorm_eq_wnorm,
    wnorm_smul (1 / vnorm v) (div_nonneg zero_le_one (vnorm_nonneg v)) v]
  rw [← vnorm_eq_wnorm]
  field_simp

/-- Orthogonality is preserved when the right vector is normalized. -/
theorem dotp_normalize_right {k : ℕ} (u v : Fin k → ℝ) (h : dotp u v = 0) :
    dotp u (normalize v) = 0 := by
  unfold dotp at h ⊢
  unfold normalize
  have hterm : ∀ n ∈ (Finset.univ : Finset (Fin k)),
      u n * (v n / vnorm v) = (u n * v n) * (1 / vnorm v) := by
    intro n _
    ring
  rw [Finset.sum_congr rfl hterm, ← Finset.sum_mul, h, zero_mul]

/-- Orthogonality is preserved when the left vector is normalized. -/
theorem dotp_normalize_left {k : ℕ} (u v : Fin k → ℝ) (h : dotp u v = 0) :
    dotp (normalize u) v = 0 := by
  rw [dotp_comm]
  exact dotp_normalize_right v u (by rw [dotp_comm]; exact h)

/-- Orthogonality is preserved when both vectors are normalized. -/
theorem dotp_normalize_both {k : ℕ} (u v : Fin k → ℝ) (h : dotp u v = 0) :
    dotp (normalize u) (normalize v) = 0 :=
  dotp_normalize_right _ _ (dotp_normalize_left _ _ h)

/-- Every cosine row is nonzero: its first entry is `cos 0 = 1`. -/
theorem vnorm_cosRow_ne_zero (k i : ℕ) (hk : 0 < k) :
    vnorm (cosRow k i) ≠ 0 := by
  intro h
  have h0 := (vnorm_eq_zero_iff _).mp h ⟨0, hk⟩
  have h1 : cosRow k i ⟨0, hk⟩ = 1 := by
    unfold cosRow
    norm_num
  rw [h1] at h0
  exact one_ne_zero h0

/-- A sine row whose doubled frequency stays below `k` is nonzero: its entry
at `n = 1` is `sin (2π j / k)` with `0 < 2π j / k < π`. -/
theorem vnorm_sinRow_ne_zero (k j : ℕ) (hj1 : 1 ≤ j) (hj2 : 2 * j < k) :
    vnorm (sinRow k j) ≠ 0 := by
  have hk1 : 1 < k := by omega
  intro h
  have h0 := (vnorm_eq_zero_iff _).mp h ⟨1, hk1⟩
  have hkpos : (0 : ℝ) < k := by exact_mod_cast Nat.pos_of_ne_zero (by omega)
  have hjpos : (0 : ℝ) < j := by exact_mod_cast hj1
  have harg : sinRow k j ⟨1, hk1⟩ = Real.sin (2 * Real.pi * j / k) := by
    unfold sinRow
    norm_num
  have hpos : 0 < Real.sin (2 * Real.pi * j / k) := by
    apply Real.sin_pos_of_pos_of_lt_pi
    · apply div_pos _ hkpos
      have := Real.pi_pos
      nlinarith
    · rw [div_lt_iff₀ hkpos]
      have h2jk : (2 * j : ℝ) < k := by exact_mod_cast hj2
      have := Real.pi_pos
      nlinarith
  rw [harg] at h0
  rw [h0] at hpos
  exact lt_irrefl 0 hpos

/-! ## Indexing the Fourier basis list -/

/-- The cosine/sine pair block built by the loop has two rows per harmonic. -/
theorem pairs_length {β : Type} (f g : ℕ → β) (M : ℕ) :
    ((List.range M).flatMap (fun j => [f j, g j])).length = 2 * M := by
  induction M with
  | zero => rfl
  | succ m ih =>
    rw [List.range_succ, List.flatMap_append]
    simp only [List.length_append, ih, List.flatMap_cons, List.flatMap_nil,
      List.append_nil, List.length_cons, List.length_nil]
    omega

/-- Reading the pair block at an in-range index yields the cosine entry at
even offsets and the sine entry at odd offsets. -/
theorem pairs_getD {β : Type} (f g : ℕ → β) (d : β) (M t : ℕ) (h : t < 2 * M) :
    ((List.range M).flatMap (fun j => [f j, g j])).getD t d
      = if t % 2 = 0 then f (t / 2) else g (t / 2) := by
  induction M with
  | zero => omega
  | succ m ih =>
    rw [List.range_succ, List.flatMap_append]
    have hlen : ((List.range m).flatMap (fun j => [f j, g j])).length = 2 * m :=
      pairs_length f g m
    rcases Nat.lt_or_ge t (2 * m) with h' | h'
    · rw [List.getD_append _ _ _ _ (by rw [hlen]; exact h')]
      exact ih h'
    · rw [List.getD_append_right _ _ _ _ (by rw [hlen]; exact h'), hlen]
      have hsing : (([m] : List ℕ).flatMap (fun j => [f j, g j])) = [f m, g m] := by
        simp
      rw [hsing]
      have ht : t = 2 * m ∨ t = 2 * m + 1 := by omega
      rcases ht with rfl | rfl
      · have e1 : 2 * m - 2 * m = 0 := by omega
        have e2 : (2 * m) % 2 = 0 := by omega
        have e3 : (2 * m) / 2 = m := by omega
        rw [e1, e2, e3]
        simp
      · have e1 : 2 * m + 1 - 2 * m = 1 := by omega
        have e2 : (2 * m + 1) % 2 = 1 := by omega
        have e3 : (2 * m + 1) / 2 = m := by omega
        rw [e1, e2, e3]
        simp

/-- `fourier_basis(k)` has `1 + 2 * (k // 2)` rows. -/
theorem fourier_basis_length (k : ℕ) :
    (fourier_basis k).length = 1 + 2 * (k / 2) := by
  rw [fourier_basis]
  simp only [List.length_append, List.length_cons, List.length_nil,
    pairs_length]

/-- Row 0 of the basis is the constant row. -/
theorem fourier_basis_getD_zero (k : ℕ) :
    (fourier_basis k).getD 0 (fun _ => 0) = constRow k := rfl

/-- Odd rows of the basis are the normalized cosine rows. -/
theorem fourier_basis_getD_odd (k m : ℕ) (h : m < k / 2) :
    (fourier_basis k).getD (2 * m + 1) (fun _ => 0)
      = normalize (cosRow k (m + 1)) := by
  rw [fourier_basis, List.singleton_append, List.getD_cons_succ]
  rw [pairs_getD _ _ _ _ _ (by omega)]
  have e2 : (2 * m) % 2 = 0 := by omega
  have e3 : (2 * m) / 2 = m := by omega
  rw [e2, e3]
  simp

/-- Even positive rows of the basis are the normalized sine rows. -/
theorem fourier_basis_getD_even (k m : ℕ) (h : m < k / 2) :
    (fourier_basis k).getD (2 * m + 2) (fun _ => 0)
      = normalize (sinRow k (m + 1)) := by
  rw [fourier_basis, List.singleton_append]
  have hidx : 2 * m + 2 = (2 * m + 1) + 1 := rfl
  rw [hidx, List.getD_cons_succ]
  rw [pairs_getD _ _ _ _ _ (by omega)]
  have e2 : (2 * m + 1) % 2 = 1 := by omega
  have e3 : (2 * m + 1) / 2 = m := by omega
  rw [e2, e3]
  simp

/-- Every in-range row index is the constant row, a cosine row, or a sine
row. -/
theorem fourier_index_class (k t : ℕ) (ht : t < 1 + 2 * (k / 2)) :
    t = 0 ∨ (∃ m, m < k / 2 ∧ t = 2 * m + 1) ∨
      (∃ m, m < k / 2 ∧ t = 2 * m + 2) := by
  rcases Nat.eq_zero_or_pos t with rfl | htpos
  · exact Or.inl rfl
  · by_cases hpar : t % 2 = 1
    · exact Or.inr (Or.inl ⟨(t - 1) / 2, by omega, by omega⟩)
    · exact Or.inr (Or.inr ⟨t / 2 - 1, by omega, by omega⟩)

/-- Every included row (excluding, for even `k`, the final degenerate sine
row) has unit norm. -/
theorem fourier_row_norm_one (k t : ℕ) (hk : 1 ≤ k) (ht : t < 1 + 2 * (k / 2))
    (hte : k % 2 = 0 → t ≠ 2 * (k / 2)) :
    vnorm ((fourier_basis k).getD t (fun _ => 0)) = 1 := by
  rcases fourier_index_class k t ht with rfl | ⟨m, hm, rfl⟩ | ⟨m, hm, rfl⟩
  · rw [fourier_basis_getD_zero]
    exact vnorm_constRow k hk
  · rw [fourier_basis_getD_odd k m hm]
    exact vnorm_normalize _ (vnorm_cosRow_ne_zero k (m + 1) hk)
  · rw [fourier_basis_getD_even k m hm]
    have h2 : 2 * (m + 1) < k := by
      rcases Nat.mod_two_eq_zero_or_one k with hpar | hpar
      · have := hte hpar
        omega
      · omega
    exact vnorm_normalize _ (vnorm_sinRow_ne_zero k (m + 1) (by omega) h2)

/-- Two included rows at indices `a < b` are orthogonal. -/
theorem fourier_rows_orthogonal_lt (k a b : ℕ) (hk : 1 ≤ k)
    (ha : a < 1 + 2 * (k / 2)) (hb : b < 1 + 2 * (k / 2))
    (hbe : k % 2 = 0 → b ≠ 2 * (k / 2)) (hab : a < b) :
    dotp ((fourier_basis k).getD a (fun _ => 0))
      ((fourier_basis k).getD b (fun _ => 0)) = 0 := by
  have hk0 : 0 < k := hk
  rcases fourier_index_class k b hb with rfl | ⟨m', hm', rfl⟩ | ⟨m', hm', rfl⟩
  · omega
  · rcases fourier_index_class k a ha with rfl | ⟨m, hm, rfl⟩ | ⟨m, hm, rfl⟩
    · rw [fourier_basis_getD_zero, fourier_basis_getD_odd k m' hm']
      exact dotp_normalize_right _ _
        (dotp_const_cos k (m' + 1) hk0 (by omega) (by omega))
    · rw [fourier_basis_getD_odd k m hm, fourier_basis_getD_odd k m' hm']
      exact dotp_normalize_both _ _
        (dotp_cos_cos k (m + 1) (m' + 1) hk0 (by omega) (by omega) (by omega)
          (by omega))
    · rw [fourier_basis_getD_even k m hm, fourier_basis_getD_odd k m' hm']
      refine dotp_normalize_both _ _ ?_
      rw [dotp_comm]
      exact dotp_cos_sin k (m' + 1) (m + 1) hk0
  · have h2m' : 2 * (m' + 1) < k := by
      rcases Nat.mod_two_eq_zero_or_one k with hpar | hpar
      · have := hbe hpar
        omega
      · omega
    rcases fourier_index_class k a ha with rfl | ⟨m, hm, rfl⟩ | ⟨m, hm, rfl⟩
    · rw [fourier_basis_getD_zero, fourier_basis_getD_even k m' hm']
      exact dotp_normalize_right _ _ (dotp_const_sin k (m' + 1) hk0)
    · rw [fourier_basis_getD_odd k m hm, fourier_basis_getD_even k m' hm']
      exact dotp_normalize_both _ _ (dotp_cos_sin k (m + 1) (m' + 1) hk0)
    · rw [fourier_basis_getD_even k m hm, fourier_basis_getD_even k m' hm']
      exact dotp_normalize_both _ _
        (dotp_sin_sin k (m + 1) (m' + 1) hk0 (by omega) (by omega) (by omega)
          (by omega))

/-- C2 (amended): for every `k ≥ 1`, the rows of `fourier_basis(k)` —
excluding, when `k` is even, the final sine row, which is the normalization
of the zero vector `sin(π n)` — form an orthonormal set: each such row has
Euclidean norm 1 and any two distinct such rows have dot product 0. -/
theorem fourier_basis_orthonormal (k : ℕ) (hk : 1 ≤ k) (a b : ℕ)
    (ha : a < (fourier_basis k).length) (hb : b < (fourier_basis k).length)
    (hae : k % 2 = 0 → a ≠ 2 * (k / 2)) (hbe : k % 2 = 0 → b ≠ 2 * (k / 2)) :
    vnorm ((fourier_basis k).getD a (fun _ => 0)) = 1 ∧
    (a ≠ b →
      dotp ((fourier_basis k).getD a (fun _ => 0))
        ((fourier_basis k).getD b (fun _ => 0)) = 0) := by
  rw [fourier_basis_length] at ha hb
  refine ⟨fourier_row_norm_one k a hk ha hae, fun hne => ?_⟩
  rcases Nat.lt_or_ge a b with h | h
  · exact fourier_rows_orthogonal_lt k a b hk ha hb hbe h
  · have h' : b < a := by omega
    rw [dotp_comm]
    exact fourier_rows_orthogonal_lt k b a hk hb ha hae h'

/-- Witness for C2 (amended) at `k = 3`, rows 0 and 1. -/
theorem fourier_basis_orthonormal_witness :
    1 ≤ 3 ∧ 0 < (fourier_basis 3).length ∧ 1 < (fourier_basis 3).length ∧
    (3 % 2 = 0 → 0 ≠ 2 * (3 / 2)) ∧ (3 % 2 = 0 → 1 ≠ 2 * (3 / 2)) ∧
    (vnorm ((fourier_basis 3).getD 0 (fun _ => 0)) = 1 ∧
      ((0 : ℕ) ≠ 1 →
        dotp ((fourier_basis 3).getD 0 (fun _ => 0))
          ((fourier_basis 3).getD 1 (fun _ => 0)) = 0)) := by
  have hlen : (fourier_basis 3).length = 3 := by rw [fourier_basis_length]
  refine ⟨by norm_num, by rw [hlen]; omega, by rw [hlen]; omega,
    by omega, by omega,
    fourier_basis_orthonormal 3 (by norm_num) 0 1 (by rw [hlen]; omega)
      (by rw [hlen]; omega) (by omega) (by omega)⟩

/-- C2 counterexample: at `k = 2` (an even size) the final row of
`fourier_basis` is the normalization of the zero sine row `sin(π n)`, so its
norm is 0, not 1, and the rows do not form an orthonormal set. -/
theorem fourier_basis_two_not_orthonormal :
    ¬ (∀ t, t < (fourier_basis 2).length →
        vnorm ((fourier_basis 2).getD t (fun _ => 0)) = 1) := by
  intro hall
  have hlen : (fourier_basis 2).length = 3 := by rw [fourier_basis_length]
  have h2 := hall 2 (by rw [hlen]; omega)
  have hdecode : (fourier_basis 2).getD 2 (fun _ => 0) = normalize (sinRow 2 1) := by
    have h := fourier_basis_getD_even 2 0 (by omega)
    simpa using h
  have hzero : ∀ n : Fin 2, sinRow 2 1 n = 0 := by
    intro n
    unfold sinRow
    have harg : 2 * Real.pi * ((n : ℕ) : ℝ) * ((1 : ℕ) : ℝ) / ((2 : ℕ) : ℝ)
        = ((n : ℕ) : ℝ) * Real.pi := by
      push_cast
      ring
    rw [harg]
    exact Real.sin_nat_mul_pi n
  have hnorm0 : vnorm (normalize (sinRow 2 1)) = 0 := by
    apply (vnorm_eq_zero_iff _).mpr
    intro n
    unfold normalize
    rw [hzero n, zero_div]
  rw [hdecode, hnorm0] at h2
  exact absurd h2 (by norm_num)

/-- C8: for `k ≥ 1`, `fourier_basis(k)` has exactly `1 + 2 * (k // 2)` rows
(each a `k`-vector): the constant row with every entry `1 / √k`, then for
each harmonic `i = m + 1` up to `k // 2` the normalized cosine and sine rows;
for even `k` this is `k + 1` rows, one more than the dimension. -/
theorem fourier_basis_shape (k : ℕ) (_hk : 1 ≤ k) :
    (fourier_basis k).length = 1 + 2 * (k / 2) ∧
    (k % 2 = 0 → (fourier_basis k).length = k + 1) ∧
    (fourier_basis k).getD 0 (fun _ => 0) = (fun _ => 1 / Real.sqrt k) ∧
    (∀ m, m < k / 2 →
      (fourier_basis k).getD (2 * m + 1) (fun _ => 0)
          = normalize (fun n => Real.cos (2 * Real.pi * n * (m + 1) / k)) ∧
      (fourier_basis k).getD (2 * m + 2) (fun _ => 0)
          = normalize (fun n => Real.sin (2 * Real.pi * n * (m + 1) / k))) := by
  refine ⟨fourier_basis_length k, fun he => ?_, rfl, fun m hm => ⟨?_, ?_⟩⟩
  · rw [fourier_basis_length]
    omega
  · rw [fourier_basis_getD_odd k m hm]
    unfold cosRow
    funext n
    congr 1
    push_cast
    ring
  · rw [fourier_basis_getD_even k m hm]
    unfold sinRow
    funext n
    congr 1
    push_cast
    ring

/-- Witness for C8 at `k = 3`. -/
theorem fourier_basis_shape_witness :
    1 ≤ 3 ∧
    ((fourier_basis 3).length = 1 + 2 * (3 / 2) ∧
     (3 % 2 = 0 → (fourier_basis 3).length = 3 + 1) ∧
     (fourier_basis 3).getD 0 (fun _ => 0) = (fun _ => 1 / Real.sqrt 3) ∧
     (∀ m, m < 3 / 2 →
       (fourier_basis 3).getD (2 * m + 1) (fun _ => 0)
           = normalize (fun n => Real.cos (2 * Real.pi * n * (m + 1) / 3)) ∧
       (fourier_basis 3).getD (2 * m + 2) (fun _ => 0)
           = normalize (fun n => Real.sin (2 * Real.pi * n * (m + 1) / 3)))) :=
  ⟨by norm_num, fourier_basis_shape 3 (by norm_num)⟩

end TLab

end
